import Mathlib

/-!
Verification of the Count Sketch notebook.

The source provides three implementations of the count sketch of an
m×n matrix A with sketch size s:
  * countSketchInMemroy  — vectorized batch implementation,
  * countSketchStreaming — one column at a time,
  * countSketchMapReduce — Spark map / reduceByKey implementation.

A matrix is embedded as the list of its columns (the code works column
by column throughout); entries live in an arbitrary commutative ring,
covering the real numbers of the source and allowing concrete
evaluation over ℤ.  The random draws (`np.random.choice`) are
externalized as explicit parameters `hs` (buckets) and `gs` (signs),
one per logical column index, so the three strategies can be compared
under identical draws.
-/

namespace CountSketch

variable {α : Type} [CommRing α]

/-- A column: a finite vector of numbers, stored entrywise. -/
abbrev Col (α : Type) := List α

/-- A matrix, stored as its list of columns. -/
abbrev Mat (α : Type) := List (Col α)

/-- `np.zeros(m)`: the all-zero column of length `m`. -/
def colZeros (α : Type) [CommRing α] (m : ℕ) : Col α := List.replicate m 0

/-- Entrywise sum of two columns (numpy `+` on vectors). -/
def addCol (a b : Col α) : Col α := List.zipWith (· + ·) a b

/-- `np.sum(·, 1)` over a selection of columns, starting from zeros. -/
def sumCols (m : ℕ) (l : List (Col α)) : Col α := l.foldl addCol (colZeros α m)

/-- Scalar multiple of a column (numpy scalar `*` vector). -/
def scaleCol (g : α) (c : Col α) : Col α := c.map (fun x => g * x)

/-- `matrixA * randSigns.reshape(1, n)`: column `j` scaled by `gs[j]`. -/
def flipSigns (A : Mat α) (gs : List α) : Mat α := List.zipWith scaleCol gs A

/-- Column `i` of the batch sketch: `matrixC[:, i] = np.sum(matrixA[:, idx], 1)`
where `idx = (hashedIndices == i)` selects the sign-flipped columns hashed
to bucket `i`. -/
def bucketCol (m : ℕ) (B : Mat α) (hs : List ℕ) (i : ℕ) : Col α :=
  sumCols m (((B.zip hs).filter (fun x => x.2 == i)).map Prod.fst)

/-- `countSketchInMemroy(matrixA, s)` from the notebook, with the random
draws `hashedIndices` (`hs`) and `randSigns` (`gs`) passed explicitly.
`m` is the row count (`matrixA.shape[0]`). -/
def countSketchInMemroy (m : ℕ) (A : Mat α) (hs : List ℕ) (gs : List α) (s : ℕ) :
    Mat α :=
  (List.range s).map (fun i => bucketCol m (flipSigns A gs) hs i)

/-- One iteration of the streaming loop: `matrixC[:, h] += g * a`, with the
bounds check numpy performs on the column index `h` made explicit (an
out-of-range index raises, embedded as `none`). -/
def streamStep (C : Mat α) (x : Col α × ℕ × α) : Option (Mat α) :=
  if x.2.1 < C.length then
    some (C.set x.2.1 (addCol (C.getD x.2.1 []) (scaleCol x.2.2 x.1)))
  else none

/-- The same iteration without the bounds check (total function used to
state what the loop computes when every index is in range). -/
def streamStepTotal (C : Mat α) (x : Col α × ℕ × α) : Mat α :=
  C.set x.2.1 (addCol (C.getD x.2.1 []) (scaleCol x.2.2 x.1))

/-- `countSketchStreaming(matrixA, s)` from the notebook: `matrixC` starts
as `np.zeros([m, s])` and each column `a = matrixA[:, j]` is folded in by
`matrixC[:, h] += g * a`, draws passed explicitly as for the batch version. -/
def countSketchStreaming (m : ℕ) (A : Mat α) (hs : List ℕ) (gs : List α) (s : ℕ) :
    Option (Mat α) :=
  (A.zip (hs.zip gs)).foldlM streamStep (List.replicate s (colZeros α m))

/-- Keys of a list in order of first appearance (auxiliary, with the set of
already-seen keys accumulated). -/
def firstOccAux (seen : List ℕ) : List ℕ → List ℕ
  | [] => []
  | h :: t => if h ∈ seen then firstOccAux seen t else h :: firstOccAux (h :: seen) t

/-- Keys of a list in order of first appearance. -/
def firstOcc (l : List ℕ) : List ℕ := firstOccAux [] l

/-- Sum (by the reducer `lambda v1, v2: v1 + v2`) of all values carrying
key `k`; the group is nonempty whenever `k` actually occurs. -/
def keySum (l : List (ℕ × Col α)) (k : ℕ) : Col α :=
  match (l.filter (fun x => x.1 == k)).map Prod.snd with
  | [] => []
  | v :: vs => vs.foldl addCol v

/-- Model of Spark `reduceByKey(lambda v1, v2: v1 + v2)` followed by
`collect()`: one pair per distinct key, the value being the sum of all
values drawn to that key.  Spark does not specify the order of the
collected pairs (it depends on the partitioner), so a deterministic model
must fix one arbitrarily; this one uses first key appearance.  Only the
order-insensitive consequences — the set of keys, the absence of
duplicate keys, the per-key sums, the pair count — are faithful to the
source; nothing about the chosen order is. -/
def reduceByKey (l : List (ℕ × Col α)) : List (ℕ × Col α) :=
  (firstOcc (l.map Prod.fst)).map (fun k => (k, keySum l k))

/-- The `pairRDD`: each column is mapped to the key-value pair
`(np.random.randint(0, s), (np.random.randint(0, 2) * 2 - 1) * vect)`,
with the draws passed explicitly per logical column index. -/
def sketchPairs (A : Mat α) (hs : List ℕ) (gs : List α) : List (ℕ × Col α) :=
  List.zipWith (fun (p : ℕ × α) (a : Col α) => (p.1, scaleCol p.2 a)) (hs.zip gs) A

/-- `countSketchMapReduce(filepath, s)` from the notebook: build the
key-value pairs, `reduceByKey`, drop the keys (`pair[1]`), `collect()`;
`np.asarray(vectList).T` makes the collected vectors the output columns. -/
def countSketchMapReduce (A : Mat α) (hs : List ℕ) (gs : List α) : Mat α :=
  (reduceByKey (sketchPairs A hs gs)).map Prod.snd

/-- Entry of a column-list matrix: column `j`, row `r`. -/
def entry (M : Mat α) (j r : ℕ) : α := (M.getD j []).getD r 0

/-- The sketching matrix S of the spec: row `j` has its unique nonzero
entry, `sign_j`, at column `bucket_j`. -/
def Smat (hs : List ℕ) (gs : List α) (j i : ℕ) : α :=
  if hs.getD j 0 = i then gs.getD j 0 else 0

/-- Entry `(r, i)` of the product A·S, following the spec invariant
C = A·S. -/
def AmulS (A : Mat α) (hs : List ℕ) (gs : List α) (r i : ℕ) : α :=
  ∑ j ∈ Finset.range A.length, entry A j r * Smat hs gs j i

/-! ### Basic column arithmetic -/

lemma length_colZeros (m : ℕ) : (colZeros α m).length = m := List.length_replicate m 0

lemma getD_colZeros {m r : ℕ} (h : r < m) : (colZeros α m).getD r 0 = 0 := by
  rw [List.getD_eq_getElem _ _ (by simpa [length_colZeros] using h)]
  simp [colZeros]

lemma length_addCol (a b : Col α) : (addCol a b).length = min a.length b.length :=
  List.length_zipWith _ a b

lemma length_scaleCol (g : α) (c : Col α) : (scaleCol g c).length = c.length :=
  List.length_map c _

lemma addCol_comm (a b : Col α) : addCol a b = addCol b a :=
  List.zipWith_comm_of_comm _ add_comm a b

lemma addCol_assoc (a b c : Col α) :
    addCol (addCol a b) c = addCol a (addCol b c) := by
  induction a generalizing b c with
  | nil => simp [addCol]
  | cons x a ih =>
    cases b with
    | nil => simp [addCol]
    | cons y b =>
      cases c with
      | nil => simp [addCol]
      | cons z c =>
        simp only [addCol] at ih ⊢
        simp [add_assoc, ih]

lemma addCol_left_comm (a b c : Col α) :
    addCol a (addCol b c) = addCol b (addCol a c) := by
  rw [← addCol_assoc, addCol_comm a b, addCol_assoc]

lemma addCol_zeros_left {m : ℕ} {c : Col α} (h : c.length ≤ m) :
    addCol (colZeros α m) c = c := by
  induction c generalizing m with
  | nil => simp [addCol]
  | cons x c ih =>
    cases m with
    | zero => simp at h
    | succ m =>
      have h' : c.length ≤ m := by simpa using h
      have hc := ih h'
      simp only [colZeros, List.replicate_succ, addCol, List.zipWith_cons_cons, zero_add]
      simpa [addCol, colZeros] using hc

lemma addCol_zeros_right {m : ℕ} {c : Col α} (h : c.length ≤ m) :
    addCol c (colZeros α m) = c := by
  rw [addCol_comm]; exact addCol_zeros_left h

lemma getD_addCol {a b : Col α} {r : ℕ} (ha : r < a.length) (hb : r < b.length) :
    (addCol a b).getD r 0 = a.getD r 0 + b.getD r 0 := by
  rw [List.getD_eq_getElem _ _ (by simp [length_addCol]; omega),
    List.getD_eq_getElem _ _ ha, List.getD_eq_getElem _ _ hb]
  simp [addCol]

lemma getD_scaleCol {c : Col α} {g : α} {r : ℕ} (h : r < c.length) :
    (scaleCol g c).getD r 0 = g * c.getD r 0 := by
  rw [List.getD_eq_getElem _ _ (by simpa [length_scaleCol] using h),
    List.getD_eq_getElem _ _ h]
  simp [scaleCol]

lemma length_foldl_addCol {m : ℕ} :
    ∀ (l : List (Col α)) (x : Col α), x.length = m → (∀ c ∈ l, c.length = m) →
      (l.foldl addCol x).length = m
  | [], x, hx, _ => hx
  | c :: l, x, hx, hl => by
    have : (addCol x c).length = m := by
      rw [length_addCol, hx, hl c (by simp)]; omega
    simpa using length_foldl_addCol l (addCol x c) this (fun d hd => hl d (by simp [hd]))

lemma length_sumCols {m : ℕ} {l : List (Col α)} (hl : ∀ c ∈ l, c.length = m) :
    (sumCols m l).length = m :=
  length_foldl_addCol l _ (length_colZeros m) hl

lemma foldl_addCol_shift {m : ℕ} :
    ∀ (l : List (Col α)) (x : Col α), x.length ≤ m → (∀ c ∈ l, c.length ≤ m) →
      l.foldl addCol x = addCol x (sumCols m l)
  | [], x, hx, _ => by
    simp [sumCols, addCol_zeros_right hx]
  | c :: l, x, hx, hl => by
    have hc : c.length ≤ m := hl c (by simp)
    have hl' : ∀ d ∈ l, d.length ≤ m := fun d hd => hl d (by simp [hd])
    have hxc : (addCol x c).length ≤ m := by rw [length_addCol]; omega
    calc (c :: l).foldl addCol x
        = l.foldl addCol (addCol x c) := by simp
      _ = addCol (addCol x c) (sumCols m l) := foldl_addCol_shift l _ hxc hl'
      _ = addCol x (addCol c (sumCols m l)) := addCol_assoc _ _ _
      _ = addCol x (sumCols m (c :: l)) := by
            rw [show sumCols m (c :: l) = l.foldl addCol c by
              simp [sumCols, addCol_zeros_left hc],
              foldl_addCol_shift l c hc hl']

lemma sumCols_cons {m : ℕ} {c : Col α} {l : List (Col α)}
    (hc : c.length ≤ m) (hl : ∀ d ∈ l, d.length ≤ m) :
    sumCols m (c :: l) = addCol c (sumCols m l) := by
  have : sumCols m (c :: l) = l.foldl addCol c := by
    simp [sumCols, addCol_zeros_left hc]
  rw [this, foldl_addCol_shift l c hc hl]

/-! ### The batch sketcher computes A·S -/

lemma mem_flipSigns_length {m : ℕ} :
    ∀ (gs : List α) (A : Mat α), (∀ c ∈ A, c.length = m) →
      ∀ b ∈ flipSigns A gs, b.length = m
  | [], A, _, b, hb => by simp [flipSigns] at hb
  | g :: gs, [], _, b, hb => by simp [flipSigns] at hb
  | g :: gs, c :: A, hA, b, hb => by
    simp only [flipSigns, List.zipWith_cons_cons, List.mem_cons] at hb
    rcases hb with rfl | hb
    · rw [length_scaleCol]; exact hA c (by simp)
    · exact mem_flipSigns_length gs A (fun d hd => hA d (by simp [hd])) b hb

lemma mem_filterZip_fst {B : Mat α} {hs : List ℕ} {p : Col α × ℕ → Bool} {b : Col α}
    (hb : b ∈ ((B.zip hs).filter p).map Prod.fst) : b ∈ B := by
  rcases List.mem_map.mp hb with ⟨x, hx, rfl⟩
  exact (List.of_mem_zip (List.mem_of_mem_filter hx)).1

lemma length_bucketCol {m : ℕ} {B : Mat α} {hs : List ℕ} {i : ℕ}
    (hB : ∀ b ∈ B, b.length = m) : (bucketCol m B hs i).length = m :=
  length_sumCols (fun c hc => hB c (mem_filterZip_fst hc))

lemma bucketCol_entry {m : ℕ} :
    ∀ (A : Mat α) (hs : List ℕ) (gs : List α) (i r : ℕ),
      hs.length = A.length → gs.length = A.length →
      (∀ c ∈ A, c.length = m) → r < m →
      (bucketCol m (flipSigns A gs) hs i).getD r 0
        = ∑ j ∈ Finset.range A.length, entry A j r * Smat hs gs j i := by
  intro A
  induction A with
  | nil =>
    intro hs gs i r _ _ _ hr
    have hb : bucketCol m (flipSigns [] gs) hs i = colZeros α m := by
      simp [bucketCol, flipSigns, sumCols]
    rw [hb, getD_colZeros hr]
    simp
  | cons c A ih =>
    intro hs gs i r hlh hlg hA hr
    cases hs with
    | nil => simp at hlh
    | cons h hs =>
      cases gs with
      | nil => simp at hlg
      | cons g gs =>
        have hc : c.length = m := hA c (by simp)
        have hA' : ∀ d ∈ A, d.length = m := fun d hd => hA d (by simp [hd])
        have hrest : ∀ b ∈ (((flipSigns A gs).zip hs).filter
            (fun x => x.2 == i)).map Prod.fst, b.length = m :=
          fun b hb => mem_flipSigns_length gs A hA' b (mem_filterZip_fst hb)
        have hflip : flipSigns (c :: A) (g :: gs) = scaleCol g c :: flipSigns A gs := by
          simp [flipSigns]
        have hdefb : sumCols m ((((flipSigns A gs).zip hs).filter
            (fun x => x.2 == i)).map Prod.fst) = bucketCol m (flipSigns A gs) hs i := rfl
        have hsum : ∑ j ∈ Finset.range (c :: A).length,
            entry (c :: A) j r * Smat (h :: hs) (g :: gs) j i
            = (∑ j ∈ Finset.range A.length, entry A j r * Smat hs gs j i)
              + c.getD r 0 * (if h = i then g else 0) := by
          rw [List.length_cons, Finset.sum_range_succ']
          have h1 : ∀ j ∈ Finset.range A.length,
              entry (c :: A) (j + 1) r * Smat (h :: hs) (g :: gs) (j + 1) i
                = entry A j r * Smat hs gs j i := by
            intro j _
            simp [entry, Smat]
          rw [Finset.sum_congr rfl h1]
          simp [entry, Smat]
        rw [hsum]
        by_cases hi : h = i
        · have hfil : ((scaleCol g c :: flipSigns A gs).zip (h :: hs)).filter
              (fun x => x.2 == i)
              = (scaleCol g c, h)
                :: ((flipSigns A gs).zip hs).filter (fun x => x.2 == i) := by
            simp [List.filter_cons, hi]
          rw [bucketCol, hflip, hfil, List.map_cons,
            sumCols_cons (by rw [length_scaleCol, hc])
              (fun d hd => le_of_eq (hrest d hd)),
            getD_addCol (by rw [length_scaleCol, hc]; exact hr)
              (by rw [length_sumCols hrest]; exact hr),
            getD_scaleCol (by rw [hc]; exact hr), hdefb,
            ih hs gs i r (by simpa using hlh) (by simpa using hlg) hA' hr]
          rw [if_pos hi]
          ring
        · have hfil : ((scaleCol g c :: flipSigns A gs).zip (h :: hs)).filter
              (fun x => x.2 == i)
              = ((flipSigns A gs).zip hs).filter (fun x => x.2 == i) := by
            simp [List.filter_cons, hi]
          rw [bucketCol, hflip, hfil, hdefb,
            ih hs gs i r (by simpa using hlh) (by simpa using hlg) hA' hr]
          rw [if_neg hi]
          ring

lemma length_countSketchInMemroy (m : ℕ) (A : Mat α) (hs : List ℕ) (gs : List α)
    (s : ℕ) : (countSketchInMemroy m A hs gs s).length = s := by
  simp [countSketchInMemroy]

lemma countSketchInMemroy_getD {m s : ℕ} {A : Mat α} {hs : List ℕ} {gs : List α}
    {i : ℕ} (hi : i < s) :
    (countSketchInMemroy m A hs gs s).getD i []
      = bucketCol m (flipSigns A gs) hs i := by
  rw [countSketchInMemroy, List.getD_eq_getElem _ _ (by simpa using hi)]
  simp

lemma mem_countSketchInMemroy_length {m s : ℕ} {A : Mat α} {hs : List ℕ}
    {gs : List α} (hA : ∀ c ∈ A, c.length = m) :
    ∀ c ∈ countSketchInMemroy m A hs gs s, c.length = m := by
  intro c hc
  simp only [countSketchInMemroy, List.mem_map] at hc
  rcases hc with ⟨i, _, rfl⟩
  exact length_bucketCol (mem_flipSigns_length gs A hA)

/-- C1: for every m×n matrix A, every s > 0, and every draw of buckets
bucket_j ∈ [0, s) and signs sign_j ∈ {+1, -1} per column index j, the
batch sketcher returns exactly the m×s matrix A·S, where S is the n×s
matrix whose row j has its single nonzero entry sign_j at column
bucket_j. -/
theorem C1_batch_sketch_eq_A_mul_S (m s : ℕ) (A : Mat α) (hs : List ℕ)
    (gs : List α) (_hs0 : 0 < s)
    (hlh : hs.length = A.length) (hlg : gs.length = A.length)
    (hA : ∀ c ∈ A, c.length = m)
    (_hbuck : ∀ h ∈ hs, h < s) (_hsgn : ∀ g ∈ gs, g = 1 ∨ g = -1) :
    (countSketchInMemroy m A hs gs s).length = s ∧
    (∀ c ∈ countSketchInMemroy m A hs gs s, c.length = m) ∧
    ∀ i < s, ∀ r < m,
      entry (countSketchInMemroy m A hs gs s) i r = AmulS A hs gs r i := by
  refine ⟨length_countSketchInMemroy m A hs gs s,
    mem_countSketchInMemroy_length hA, ?_⟩
  intro i hi r hr
  rw [entry, countSketchInMemroy_getD hi, AmulS]
  exact bucketCol_entry A hs gs i r hlh hlg hA hr

/-- Witness for C1 at a concrete input: A = [[1],[2]] (1×2), s = 2,
buckets [1,0], signs [1,-1]. -/
theorem C1_batch_sketch_eq_A_mul_S_witness :
    ((0:ℕ) < 2 ∧
     ([1, 0] : List ℕ).length = ([[(1:ℤ)], [2]] : Mat ℤ).length ∧
     ([1, -1] : List ℤ).length = ([[(1:ℤ)], [2]] : Mat ℤ).length ∧
     (∀ c ∈ ([[(1:ℤ)], [2]] : Mat ℤ), c.length = 1) ∧
     (∀ h ∈ ([1, 0] : List ℕ), h < 2) ∧
     (∀ g ∈ ([1, -1] : List ℤ), g = 1 ∨ g = -1)) ∧
    ((countSketchInMemroy 1 [[(1:ℤ)], [2]] [1, 0] [1, -1] 2).length = 2 ∧
     (∀ c ∈ countSketchInMemroy 1 [[(1:ℤ)], [2]] [1, 0] [1, -1] 2, c.length = 1) ∧
     ∀ i < 2, ∀ r < 1,
       entry (countSketchInMemroy 1 [[(1:ℤ)], [2]] [1, 0] [1, -1] 2) i r
         = AmulS [[(1:ℤ)], [2]] [1, 0] [1, -1] r i) :=
  ⟨⟨by decide, by decide, by decide, by decide, by decide, by decide⟩,
   C1_batch_sketch_eq_A_mul_S 1 2 [[(1:ℤ)], [2]] [1, 0] [1, -1]
     (by decide) (by decide) (by decide) (by decide) (by decide) (by decide)⟩

/-! ### The streaming loop -/

lemma length_streamStepTotal (C : Mat α) (x : Col α × ℕ × α) :
    (streamStepTotal C x).length = C.length := by
  simp [streamStepTotal]

lemma length_foldl_streamStepTotal :
    ∀ (l : List (Col α × ℕ × α)) (C : Mat α),
      (l.foldl streamStepTotal C).length = C.length
  | [], _ => rfl
  | x :: t, C => by
    rw [List.foldl_cons, length_foldl_streamStepTotal t _, length_streamStepTotal]

lemma foldlM_streamStep_eq :
    ∀ (l : List (Col α × ℕ × α)) (C : Mat α), (∀ x ∈ l, x.2.1 < C.length) →
      l.foldlM streamStep C = some (l.foldl streamStepTotal C)
  | [], _, _ => rfl
  | x :: t, C, hl => by
    have hx : x.2.1 < C.length := hl x (by simp)
    have hstep : streamStep C x = some (streamStepTotal C x) := by
      rw [streamStep, if_pos hx]; rfl
    have ht : ∀ y ∈ t, y.2.1 < (streamStepTotal C x).length := by
      intro y hy
      rw [length_streamStepTotal]
      exact hl y (by simp [hy])
    rw [List.foldlM_cons, hstep]
    show t.foldlM streamStep (streamStepTotal C x) = _
    rw [foldlM_streamStep_eq t _ ht, List.foldl_cons]

lemma foldl_streamStepTotal_getD :
    ∀ (l : List (Col α × ℕ × α)) (C : Mat α) (i : ℕ), i < C.length →
      (∀ x ∈ l, x.2.1 < C.length) →
      (l.foldl streamStepTotal C).getD i []
        = ((l.filter (fun x => x.2.1 == i)).map
            (fun x => scaleCol x.2.2 x.1)).foldl addCol (C.getD i [])
  | [], _, _, _, _ => rfl
  | x :: t, C, i, hi, hl => by
    have hi' : i < (streamStepTotal C x).length := by
      rw [length_streamStepTotal]; exact hi
    have ht : ∀ y ∈ t, y.2.1 < (streamStepTotal C x).length := by
      intro y hy
      rw [length_streamStepTotal]
      exact hl y (by simp [hy])
    rw [List.foldl_cons, foldl_streamStepTotal_getD t _ i hi' ht]
    by_cases hxi : x.2.1 = i
    · have hD : (streamStepTotal C x).getD i []
          = addCol (C.getD i []) (scaleCol x.2.2 x.1) := by
        simp only [streamStepTotal, hxi]
        rw [List.getD_eq_getElem _ _ (by simpa using hi)]
        simp [List.getElem_set, List.getD_eq_getElem C _ hi]
      have hfil : (x :: t).filter (fun y => y.2.1 == i)
          = x :: t.filter (fun y => y.2.1 == i) := by
        simp [List.filter_cons, hxi]
      rw [hD, hfil, List.map_cons, List.foldl_cons]
    · have hD : (streamStepTotal C x).getD i [] = C.getD i [] := by
        simp only [streamStepTotal]
        rw [List.getD_eq_getElem _ _ (by simpa using hi),
          List.getElem_set, if_neg hxi, ← List.getD_eq_getElem C _ hi]
      have hfil : (x :: t).filter (fun y => y.2.1 == i)
          = t.filter (fun y => y.2.1 == i) := by
        simp [List.filter_cons, hxi]
      rw [hD, hfil]

lemma zip_signed_filter_eq :
    ∀ (A : Mat α) (hs : List ℕ) (gs : List α) (i : ℕ),
      hs.length = A.length → gs.length = A.length →
      ((A.zip (hs.zip gs)).filter (fun x => x.2.1 == i)).map
          (fun x => scaleCol x.2.2 x.1)
        = (((flipSigns A gs).zip hs).filter (fun x => x.2 == i)).map Prod.fst
  | [], hs, gs, i, hlh, hlg => by simp [flipSigns]
  | c :: A, hs, gs, i, hlh, hlg => by
    cases hs with
    | nil => simp at hlh
    | cons h hs =>
      cases gs with
      | nil => simp at hlg
      | cons g gs =>
        have ih := zip_signed_filter_eq A hs gs i (by simpa using hlh)
          (by simpa using hlg)
        by_cases hi : h = i
        · simp [flipSigns, List.filter_cons, hi, ih]
        · simp [flipSigns, List.filter_cons, hi, ih]

lemma mem_zip_bucket_lt {A : Mat α} {hs : List ℕ} {gs : List α} {s : ℕ}
    (hbuck : ∀ h ∈ hs, h < s) : ∀ x ∈ A.zip (hs.zip gs), x.2.1 < s := by
  intro x hx
  exact hbuck x.2.1 (List.of_mem_zip (List.of_mem_zip hx).2).1

lemma getD_replicate_colZeros {s m i : ℕ} (hi : i < s) :
    (List.replicate s (colZeros α m)).getD i [] = colZeros α m := by
  rw [List.getD_eq_getElem _ _ (by simpa using hi)]
  simp

/-- The streaming sketcher, run on the columns in index order with every
bucket in range, succeeds and returns exactly the batch sketch. -/
lemma countSketchStreaming_eq_some_batch {m s : ℕ} {A : Mat α} {hs : List ℕ}
    {gs : List α} (hlh : hs.length = A.length) (hlg : gs.length = A.length)
    (hbuck : ∀ h ∈ hs, h < s) :
    countSketchStreaming m A hs gs s = some (countSketchInMemroy m A hs gs s) := by
  have hC0len : (List.replicate s (colZeros α m)).length = s := by simp
  have hmem : ∀ x ∈ A.zip (hs.zip gs),
      x.2.1 < (List.replicate s (colZeros α m)).length := by
    rw [hC0len]
    exact mem_zip_bucket_lt hbuck
  rw [countSketchStreaming, foldlM_streamStep_eq _ _ hmem]
  congr 1
  apply List.ext_getElem
  · rw [length_foldl_streamStepTotal, hC0len, length_countSketchInMemroy]
  · intro i h1 h2
    have his : i < s := by
      rw [length_foldl_streamStepTotal, hC0len] at h1
      exact h1
    rw [← List.getD_eq_getElem _ [] h1, ← List.getD_eq_getElem _ [] h2,
      foldl_streamStepTotal_getD _ _ i (by rw [hC0len]; exact his) hmem,
      countSketchInMemroy_getD his, zip_signed_filter_eq A hs gs i hlh hlg,
      getD_replicate_colZeros his]
    rfl

/-! ### The map-reduce sketcher -/

lemma mem_firstOccAux : ∀ (seen l : List ℕ) (k : ℕ), k ∈ firstOccAux seen l → k ∈ l
  | _, [], k, h => by simp [firstOccAux] at h
  | seen, a :: t, k, h => by
    rw [firstOccAux] at h
    by_cases ha : a ∈ seen
    · rw [if_pos ha] at h
      exact List.mem_cons_of_mem a (mem_firstOccAux seen t k h)
    · rw [if_neg ha] at h
      rcases List.mem_cons.mp h with rfl | h
      · exact List.mem_cons_self k t
      · exact List.mem_cons_of_mem a (mem_firstOccAux _ t k h)

lemma mem_firstOcc {l : List ℕ} {k : ℕ} (h : k ∈ firstOcc l) : k ∈ l :=
  mem_firstOccAux [] l k h

lemma mem_firstOccAux_of :
    ∀ (seen l : List ℕ) (k : ℕ), k ∈ l → k ∉ seen → k ∈ firstOccAux seen l
  | _, [], k, hk, _ => absurd hk (List.not_mem_nil k)
  | seen, a :: t, k, hk, hns => by
    rw [firstOccAux]
    by_cases ha : a ∈ seen
    · rw [if_pos ha]
      rcases List.mem_cons.mp hk with rfl | hk1
      · exact absurd ha hns
      · exact mem_firstOccAux_of seen t k hk1 hns
    · rw [if_neg ha]
      by_cases hka : k = a
      · subst hka
        exact List.mem_cons_self k _
      · rcases List.mem_cons.mp hk with rfl | hk1
        · exact absurd rfl hka
        · refine List.mem_cons_of_mem a (mem_firstOccAux_of (a :: seen) t k hk1 ?_)
          intro hmem
          rcases List.mem_cons.mp hmem with h1 | h1
          · exact hka h1
          · exact hns h1

lemma mem_firstOcc_iff {l : List ℕ} {k : ℕ} : k ∈ firstOcc l ↔ k ∈ l :=
  ⟨mem_firstOcc, fun h => mem_firstOccAux_of [] l k h (by simp)⟩

lemma firstOccAux_nodup :
    ∀ (seen l : List ℕ),
      (firstOccAux seen l).Nodup ∧ ∀ k ∈ firstOccAux seen l, k ∉ seen
  | seen, [] => ⟨List.nodup_nil, by simp [firstOccAux]⟩
  | seen, a :: t => by
    rw [firstOccAux]
    by_cases ha : a ∈ seen
    · rw [if_pos ha]
      exact firstOccAux_nodup seen t
    · rw [if_neg ha]
      obtain ⟨hnd, hnin⟩ := firstOccAux_nodup (a :: seen) t
      refine ⟨List.nodup_cons.mpr ⟨?_, hnd⟩, ?_⟩
      · intro hmem
        exact hnin a hmem (List.mem_cons_self a seen)
      · intro k hk
        rcases List.mem_cons.mp hk with rfl | hk1
        · exact ha
        · intro hks
          exact hnin k hk1 (List.mem_cons_of_mem a hks)

lemma firstOcc_nodup (l : List ℕ) : (firstOcc l).Nodup :=
  (firstOccAux_nodup [] l).1

lemma sketchPairs_map_fst {A : Mat α} {hs : List ℕ} {gs : List α}
    (hlh : hs.length = A.length) (hlg : gs.length = A.length) :
    (sketchPairs A hs gs).map Prod.fst = hs := by
  induction A generalizing hs gs with
  | nil =>
    cases hs with
    | nil => simp [sketchPairs]
    | cons h hs => simp at hlh
  | cons c A ih =>
    cases hs with
    | nil => simp at hlh
    | cons h hs =>
      cases gs with
      | nil => simp at hlg
      | cons g gs =>
        have htail := ih (by simpa using hlh) (by simpa using hlg)
        simp only [sketchPairs, List.zip_cons_cons, List.zipWith_cons_cons,
          List.map_cons]
        simp only [sketchPairs] at htail
        rw [htail]

lemma sketchPairs_filter_map_snd :
    ∀ (A : Mat α) (hs : List ℕ) (gs : List α) (i : ℕ),
      hs.length = A.length → gs.length = A.length →
      ((sketchPairs A hs gs).filter (fun x => x.1 == i)).map Prod.snd
        = (((flipSigns A gs).zip hs).filter (fun x => x.2 == i)).map Prod.fst
  | [], hs, gs, i, hlh, hlg => by simp [sketchPairs, flipSigns]
  | c :: A, hs, gs, i, hlh, hlg => by
    cases hs with
    | nil => simp at hlh
    | cons h hs =>
      cases gs with
      | nil => simp at hlg
      | cons g gs =>
        have ih := sketchPairs_filter_map_snd A hs gs i (by simpa using hlh)
          (by simpa using hlg)
        simp only [sketchPairs, flipSigns] at ih ⊢
        by_cases hi : h = i
        · simp [List.filter_cons, hi, ih]
        · simp [List.filter_cons, hi, ih]

lemma filter_fst_ne_nil {l : List (ℕ × Col α)} {k : ℕ}
    (hk : k ∈ l.map Prod.fst) : (l.filter (fun x => x.1 == k)).map Prod.snd ≠ [] := by
  rcases List.mem_map.mp hk with ⟨x, hx, rfl⟩
  intro hnil
  have hmem : x ∈ l.filter (fun y => y.1 == x.1) :=
    List.mem_filter.mpr ⟨hx, by simp⟩
  rw [List.map_eq_nil_iff.mp hnil] at hmem
  simp at hmem

lemma keySum_eq_sumCols {l : List (ℕ × Col α)} {k m : ℕ}
    (hlen : ∀ v ∈ (l.filter (fun x => x.1 == k)).map Prod.snd, v.length = m)
    (hne : (l.filter (fun x => x.1 == k)).map Prod.snd ≠ []) :
    keySum l k = sumCols m ((l.filter (fun x => x.1 == k)).map Prod.snd) := by
  rw [keySum]
  cases hL : (l.filter (fun x => x.1 == k)).map Prod.snd with
  | nil => exact absurd hL hne
  | cons v vs =>
    have hv : v.length ≤ m := le_of_eq (hlen v (by rw [hL]; simp))
    show vs.foldl addCol v = sumCols m (v :: vs)
    rw [sumCols, List.foldl_cons, addCol_zeros_left hv]

/-- The sum the reducer delivers for an occupied bucket k is exactly the
batch sketch's column k (an order-insensitive fact: the group's value does
not depend on how collect orders the keys). -/
lemma keySum_sketchPairs_eq {m s : ℕ} {A : Mat α} {hs : List ℕ} {gs : List α}
    (hlh : hs.length = A.length) (hlg : gs.length = A.length)
    (hA : ∀ c ∈ A, c.length = m) (hbuck : ∀ h ∈ hs, h < s)
    {k : ℕ} (hkhs : k ∈ hs) :
    keySum (sketchPairs A hs gs) k
      = (countSketchInMemroy m A hs gs s).getD k [] := by
  have hks : k < s := hbuck k hkhs
  rw [countSketchInMemroy_getD hks]
  have hfm := sketchPairs_filter_map_snd A hs gs k hlh hlg
  have hlenv : ∀ v ∈ ((sketchPairs A hs gs).filter (fun x => x.1 == k)).map Prod.snd,
      v.length = m := by
    rw [hfm]
    exact fun v hv => mem_flipSigns_length gs A hA v (mem_filterZip_fst hv)
  have hne : ((sketchPairs A hs gs).filter (fun x => x.1 == k)).map Prod.snd ≠ [] :=
    filter_fst_ne_nil (by rw [sketchPairs_map_fst hlh hlg]; exact hkhs)
  rw [keySum_eq_sumCols hlenv hne, hfm]
  rfl

/-- The keys the map-reduce model collects are the distinct buckets that
occur among the draws. -/
lemma reduceByKey_sketchPairs_keys {A : Mat α} {hs : List ℕ} {gs : List α}
    (hlh : hs.length = A.length) (hlg : gs.length = A.length) :
    (reduceByKey (sketchPairs A hs gs)).map Prod.fst = firstOcc hs := by
  rw [reduceByKey, sketchPairs_map_fst hlh hlg, List.map_map]
  simp [Function.comp_def]

/-- What the map-reduce model returns: for each bucket that received at
least one column, in the model's collect order, the matching column of
the batch sketch; buckets with no column are absent. -/
lemma countSketchMapReduce_eq {m s : ℕ} {A : Mat α} {hs : List ℕ} {gs : List α}
    (hlh : hs.length = A.length) (hlg : gs.length = A.length)
    (hA : ∀ c ∈ A, c.length = m) (hbuck : ∀ h ∈ hs, h < s) :
    countSketchMapReduce A hs gs
      = (firstOcc hs).map (fun k => (countSketchInMemroy m A hs gs s).getD k []) := by
  rw [countSketchMapReduce, reduceByKey, sketchPairs_map_fst hlh hlg, List.map_map]
  apply List.map_congr_left
  intro k hk
  rw [Function.comp_apply]
  exact keySum_sketchPairs_eq hlh hlg hA hbuck (mem_firstOcc hk)

lemma length_countSketchMapReduce {A : Mat α} {hs : List ℕ} {gs : List α}
    (hlh : hs.length = A.length) (hlg : gs.length = A.length) :
    (countSketchMapReduce A hs gs).length = (firstOcc hs).length := by
  rw [countSketchMapReduce, reduceByKey, sketchPairs_map_fst hlh hlg]
  simp

/-! ### C2: cross-strategy agreement -/

/-- C2 counterexample, robust to the unspecified collect order: at
A = [[5]] (1×1), s = 2, bucket draw [0], sign [1], the streaming sketcher
reproduces the batch sketch [[5],[0]] exactly, but the map-reduce
sketcher collects exactly one vector — one per occupied bucket, whatever
order collect yields them in — so its output has 1 column instead of 2
and cannot equal the m×s matrix the other two agree on. -/
theorem C2_counterexample :
    countSketchStreaming 1 [[(5:ℤ)]] [0] [1] 2
        = some (countSketchInMemroy 1 [[(5:ℤ)]] [0] [1] 2) ∧
    (countSketchInMemroy 1 [[(5:ℤ)]] [0] [1] 2).length = 2 ∧
    (countSketchMapReduce [[(5:ℤ)]] [0] [1]).length = 1 ∧
    countSketchMapReduce [[(5:ℤ)]] [0] [1]
      ≠ countSketchInMemroy 1 [[(5:ℤ)]] [0] [1] 2 :=
  ⟨by decide, by decide, by decide, by decide⟩

/-- C2 (amended): under identical (bucket, sign) draws per logical column
index with buckets in [0, s), the batch sketcher and the streaming
sketcher fed the columns in index order return exactly the same m×s
matrix.  The map-reduce sketcher does not return that matrix: dropping
the keys after reduceByKey, it collects exactly one column per occupied
bucket — that bucket's column of the batch sketch — in an unspecified
collect order and with no columns for empty buckets.  The map-reduce
part is stated through order-insensitive properties of the collected
pairs only: their key set is the set of drawn buckets, no key repeats,
and each key's value is the batch sketch's column at that bucket. -/
theorem C2_strategies_agreement (m s : ℕ) (A : Mat α) (hs : List ℕ)
    (gs : List α) (_hs0 : 0 < s)
    (hlh : hs.length = A.length) (hlg : gs.length = A.length)
    (hA : ∀ c ∈ A, c.length = m) (hbuck : ∀ h ∈ hs, h < s)
    (_hsgn : ∀ g ∈ gs, g = 1 ∨ g = -1) :
    countSketchStreaming m A hs gs s = some (countSketchInMemroy m A hs gs s) ∧
    (∀ k, k ∈ (reduceByKey (sketchPairs A hs gs)).map Prod.fst ↔ k ∈ hs) ∧
    ((reduceByKey (sketchPairs A hs gs)).map Prod.fst).Nodup ∧
    ∀ p ∈ reduceByKey (sketchPairs A hs gs),
      p.2 = (countSketchInMemroy m A hs gs s).getD p.1 [] := by
  refine ⟨countSketchStreaming_eq_some_batch hlh hlg hbuck, ?_, ?_, ?_⟩
  · intro k
    rw [reduceByKey_sketchPairs_keys hlh hlg]
    exact mem_firstOcc_iff
  · rw [reduceByKey_sketchPairs_keys hlh hlg]
    exact firstOcc_nodup hs
  · intro p hp
    rw [reduceByKey] at hp
    rcases List.mem_map.mp hp with ⟨k, hk, rfl⟩
    have hkhs : k ∈ hs := by
      rw [sketchPairs_map_fst hlh hlg] at hk
      exact mem_firstOcc hk
    exact keySum_sketchPairs_eq hlh hlg hA hbuck hkhs

/-- Witness for the amended C2 at A = [[1],[2]], s = 2, buckets [1,0],
signs [1,-1]. -/
theorem C2_strategies_agreement_witness :
    ((0:ℕ) < 2 ∧
     ([1, 0] : List ℕ).length = ([[(1:ℤ)], [2]] : Mat ℤ).length ∧
     ([1, -1] : List ℤ).length = ([[(1:ℤ)], [2]] : Mat ℤ).length ∧
     (∀ c ∈ ([[(1:ℤ)], [2]] : Mat ℤ), c.length = 1) ∧
     (∀ h ∈ ([1, 0] : List ℕ), h < 2) ∧
     (∀ g ∈ ([1, -1] : List ℤ), g = 1 ∨ g = -1)) ∧
    (countSketchStreaming 1 [[(1:ℤ)], [2]] [1, 0] [1, -1] 2
        = some (countSketchInMemroy 1 [[(1:ℤ)], [2]] [1, 0] [1, -1] 2) ∧
     (∀ k, k ∈ (reduceByKey (sketchPairs [[(1:ℤ)], [2]] [1, 0] [1, -1])).map
          Prod.fst ↔ k ∈ ([1, 0] : List ℕ)) ∧
     ((reduceByKey (sketchPairs [[(1:ℤ)], [2]] [1, 0] [1, -1])).map
        Prod.fst).Nodup ∧
     ∀ p ∈ reduceByKey (sketchPairs [[(1:ℤ)], [2]] [1, 0] [1, -1]),
       p.2 = (countSketchInMemroy 1 [[(1:ℤ)], [2]] [1, 0] [1, -1] 2).getD
         p.1 []) :=
  ⟨⟨by decide, by decide, by decide, by decide, by decide, by decide⟩,
   C2_strategies_agreement 1 2 [[(1:ℤ)], [2]] [1, 0] [1, -1]
     (by decide) (by decide) (by decide) (by decide) (by decide) (by decide)⟩

/-! ### C3: shape contract -/

/-- C3 counterexample: for A = [[5]] (1×1), s = 2, bucket draw [0], the
map-reduce sketcher returns a matrix with a single column, not s = 2
columns: the empty bucket 1 is dropped from its output. -/
theorem C3_counterexample :
    (countSketchMapReduce [[(5:ℤ)]] [0] [1]).length ≠ 2 := by decide

/-- C3 (amended): the batch sketcher always returns an m×s matrix — for
n = 0 the all-zero m×s matrix, and for s > n still m×s — but the
map-reduce sketcher returns one column per distinct bucket actually
drawn (so an m×k matrix with k = number of distinct buckets, not m×s). -/
theorem C3_shape_contract (m s : ℕ) (A : Mat α) (hs : List ℕ) (gs : List α)
    (_hs0 : 0 < s) (hlh : hs.length = A.length) (hlg : gs.length = A.length)
    (hA : ∀ c ∈ A, c.length = m) :
    (countSketchInMemroy m A hs gs s).length = s ∧
    (∀ c ∈ countSketchInMemroy m A hs gs s, c.length = m) ∧
    (A = [] → countSketchInMemroy m A hs gs s = List.replicate s (colZeros α m)) ∧
    (countSketchMapReduce A hs gs).length = (firstOcc hs).length := by
  refine ⟨length_countSketchInMemroy m A hs gs s,
    mem_countSketchInMemroy_length hA, ?_, length_countSketchMapReduce hlh hlg⟩
  intro hA0
  subst hA0
  rw [countSketchInMemroy, List.eq_replicate_iff]
  refine ⟨by simp, ?_⟩
  intro b hb
  rcases List.mem_map.mp hb with ⟨i, _, rfl⟩
  simp [bucketCol, flipSigns, sumCols]

/-- Witness for the amended C3 at the n = 0 edge case: A empty, s = 2. -/
theorem C3_shape_contract_witness :
    ((0:ℕ) < 2 ∧ ([] : List ℕ).length = ([] : Mat ℤ).length ∧
     ([] : List ℤ).length = ([] : Mat ℤ).length ∧
     (∀ c ∈ ([] : Mat ℤ), c.length = 1)) ∧
    ((countSketchInMemroy 1 ([] : Mat ℤ) [] [] 2).length = 2 ∧
     (∀ c ∈ countSketchInMemroy 1 ([] : Mat ℤ) [] [] 2, c.length = 1) ∧
     (([] : Mat ℤ) = [] →
       countSketchInMemroy 1 ([] : Mat ℤ) [] [] 2
         = List.replicate 2 (colZeros ℤ 1)) ∧
     (countSketchMapReduce ([] : Mat ℤ) [] []).length = (firstOcc []).length) :=
  ⟨⟨by decide, by decide, by decide, by decide⟩,
   C3_shape_contract 1 2 ([] : Mat ℤ) [] []
     (by decide) (by decide) (by decide) (by decide)⟩

/-! ### C4: empty buckets -/

/-- C4 counterexample: for A = [[5]], s = 2, bucket draw [0], output
bucket 1 receives no input column; the claim requires column 1 of the
returned sketch to be the zero vector, but the map-reduce sketcher's
output has no column at position 1 at all (its length is 1), so column 1
is not the zero vector [0]. -/
theorem C4_counterexample :
    (∀ h ∈ ([0] : List ℕ), h ≠ 1) ∧
    (countSketchMapReduce [[(5:ℤ)]] [0] [1]).getD 1 [] ≠ colZeros ℤ 1 ∧
    (countSketchMapReduce [[(5:ℤ)]] [0] [1]).length = 1 :=
  ⟨by decide, by decide, by decide⟩

/-- C4 (amended): a bucket i in [0, s) to which no input column is
assigned is exactly the zero vector in the batch sketch and in the
streaming sketch; the map-reduce sketcher instead omits such a bucket
from its output entirely (no pair with key i is ever collected). -/
theorem C4_zero_bucket (m s : ℕ) (A : Mat α) (hs : List ℕ) (gs : List α)
    (hlh : hs.length = A.length) (hlg : gs.length = A.length)
    (hbuck : ∀ h ∈ hs, h < s)
    (i : ℕ) (his : i < s) (hno : ∀ h ∈ hs, h ≠ i) :
    (countSketchInMemroy m A hs gs s).getD i [] = colZeros α m ∧
    (∀ C, countSketchStreaming m A hs gs s = some C →
      C.getD i [] = colZeros α m) ∧
    i ∉ (reduceByKey (sketchPairs A hs gs)).map Prod.fst := by
  have hbatch : (countSketchInMemroy m A hs gs s).getD i [] = colZeros α m := by
    rw [countSketchInMemroy_getD his]
    have hfil : ((flipSigns A gs).zip hs).filter (fun x => x.2 == i) = [] := by
      rw [List.filter_eq_nil_iff]
      intro x hx
      simp [hno x.2 (List.of_mem_zip hx).2]
    rw [bucketCol, hfil]
    rfl
  refine ⟨hbatch, ?_, ?_⟩
  · intro C hC
    rw [countSketchStreaming_eq_some_batch hlh hlg hbuck] at hC
    cases hC
    exact hbatch
  · rw [reduceByKey, sketchPairs_map_fst hlh hlg, List.map_map]
    intro hmem
    simp only [List.map_map, Function.comp_def, List.map_id] at hmem
    have : i ∈ firstOcc hs := by simpa using hmem
    exact hno i (mem_firstOcc this) rfl

/-- Witness for the amended C4: A = [[5]], s = 2, bucket draw [0],
empty bucket i = 1. -/
theorem C4_zero_bucket_witness :
    (([0] : List ℕ).length = ([[(5:ℤ)]] : Mat ℤ).length ∧
     ([1] : List ℤ).length = ([[(5:ℤ)]] : Mat ℤ).length ∧
     (∀ h ∈ ([0] : List ℕ), h < 2) ∧ (1:ℕ) < 2 ∧
     (∀ h ∈ ([0] : List ℕ), h ≠ 1)) ∧
    ((countSketchInMemroy 1 [[(5:ℤ)]] [0] [1] 2).getD 1 [] = colZeros ℤ 1 ∧
     (∀ C, countSketchStreaming 1 [[(5:ℤ)]] [0] [1] 2 = some C →
       C.getD 1 [] = colZeros ℤ 1) ∧
     (1:ℕ) ∉ (reduceByKey (sketchPairs [[(5:ℤ)]] [0] [1])).map Prod.fst) :=
  ⟨⟨by decide, by decide, by decide, by decide, by decide⟩,
   C4_zero_bucket 1 2 [[(5:ℤ)]] [0] [1]
     (by decide) (by decide) (by decide) 1 (by decide) (by decide)⟩

/-! ### C5: streaming prefix invariant and resumability -/

lemma take_zip_eq {β γ : Type} :
    ∀ (n : ℕ) (l1 : List β) (l2 : List γ),
      (l1.zip l2).take n = (l1.take n).zip (l2.take n)
  | 0, _, _ => rfl
  | _ + 1, [], _ => by simp
  | _ + 1, _ :: _, [] => by simp
  | n + 1, b :: l1, c :: l2 => by
    simp only [List.zip_cons_cons, List.take_succ_cons]
    rw [take_zip_eq n l1 l2]

/-- C5: after processing any prefix of k columns, the streaming
accumulator is exactly the batch sketch of those k columns (the signed
columns summed into an initially all-zero m×s buffer), and resuming the
remaining columns from that partial state finishes with the same final
sketch as an uninterrupted run. -/
theorem C5_streaming_prefix_invariant (m s : ℕ) (A : Mat α) (hs : List ℕ)
    (gs : List α)
    (hlh : hs.length = A.length) (hlg : gs.length = A.length)
    (_hA : ∀ c ∈ A, c.length = m) (hbuck : ∀ h ∈ hs, h < s) (k : ℕ) :
    ((A.zip (hs.zip gs)).take k).foldlM streamStep
        (List.replicate s (colZeros α m))
      = some (countSketchInMemroy m (A.take k) (hs.take k) (gs.take k) s) ∧
    countSketchStreaming m A hs gs s
      = ((A.zip (hs.zip gs)).drop k).foldlM streamStep
          (countSketchInMemroy m (A.take k) (hs.take k) (gs.take k) s) := by
  have hzip : (A.zip (hs.zip gs)).take k
      = (A.take k).zip ((hs.take k).zip (gs.take k)) := by
    rw [take_zip_eq, take_zip_eq]
  have hpre : ((A.zip (hs.zip gs)).take k).foldlM streamStep
      (List.replicate s (colZeros α m))
      = some (countSketchInMemroy m (A.take k) (hs.take k) (gs.take k) s) := by
    rw [hzip]
    exact countSketchStreaming_eq_some_batch
      (by simp [hlh]) (by simp [hlg])
      (fun h hh => hbuck h (List.take_subset k hs hh))
  refine ⟨hpre, ?_⟩
  conv_lhs => rw [countSketchStreaming,
    ← List.take_append_drop k (A.zip (hs.zip gs))]
  rw [List.foldlM_append, hpre]
  rfl

/-- Witness for C5 at A = [[1],[2]], s = 2, buckets [1,0], signs [1,-1],
checkpoint k = 1. -/
theorem C5_streaming_prefix_invariant_witness :
    (([1, 0] : List ℕ).length = ([[(1:ℤ)], [2]] : Mat ℤ).length ∧
     ([1, -1] : List ℤ).length = ([[(1:ℤ)], [2]] : Mat ℤ).length ∧
     (∀ c ∈ ([[(1:ℤ)], [2]] : Mat ℤ), c.length = 1) ∧
     (∀ h ∈ ([1, 0] : List ℕ), h < 2)) ∧
    (((([[(1:ℤ)], [2]] : Mat ℤ).zip (([1, 0] : List ℕ).zip
          ([1, -1] : List ℤ))).take 1).foldlM streamStep
        (List.replicate 2 (colZeros ℤ 1))
      = some (countSketchInMemroy 1 (([[(1:ℤ)], [2]] : Mat ℤ).take 1)
          (([1, 0] : List ℕ).take 1) (([1, -1] : List ℤ).take 1) 2) ∧
     countSketchStreaming 1 [[(1:ℤ)], [2]] [1, 0] [1, -1] 2
      = ((([[(1:ℤ)], [2]] : Mat ℤ).zip (([1, 0] : List ℕ).zip
          ([1, -1] : List ℤ))).drop 1).foldlM streamStep
          (countSketchInMemroy 1 (([[(1:ℤ)], [2]] : Mat ℤ).take 1)
            (([1, 0] : List ℕ).take 1) (([1, -1] : List ℤ).take 1) 2)) :=
  ⟨⟨by decide, by decide, by decide, by decide⟩,
   C5_streaming_prefix_invariant 1 2 [[(1:ℤ)], [2]] [1, 0] [1, -1]
     (by decide) (by decide) (by decide) (by decide) 1⟩

/-! ### C6: linearity in the input matrix -/

/-- The scalar multiple αA of a matrix (numpy scalar `*` matrix). -/
def scaleMat (g : α) (A : Mat α) : Mat α := A.map (scaleCol g)

lemma scaleCol_scaleCol (a g : α) (c : Col α) :
    scaleCol g (scaleCol a c) = scaleCol a (scaleCol g c) := by
  simp [scaleCol, List.map_map, Function.comp_def, mul_left_comm]

lemma scaleCol_colZeros (a : α) (m : ℕ) : scaleCol a (colZeros α m) = colZeros α m := by
  simp [scaleCol, colZeros, List.map_replicate]

lemma scaleCol_addCol (a : α) :
    ∀ (u v : Col α), addCol (scaleCol a u) (scaleCol a v) = scaleCol a (addCol u v)
  | [], _ => by simp [addCol, scaleCol]
  | _ :: _, [] => by simp [addCol, scaleCol]
  | x :: u, y :: v => by
    simp only [scaleCol, addCol, List.map_cons, List.zipWith_cons_cons, mul_add]
    rw [show List.zipWith (· + ·) (u.map fun t => a * t) (v.map fun t => a * t)
        = addCol (scaleCol a u) (scaleCol a v) from rfl,
      scaleCol_addCol a u v]
    rfl

lemma flipSigns_scaleMat (a : α) :
    ∀ (gs : List α) (A : Mat α),
      flipSigns (scaleMat a A) gs = scaleMat a (flipSigns A gs)
  | [], _ => by simp [flipSigns, scaleMat]
  | g :: gs, [] => by simp [flipSigns, scaleMat]
  | g :: gs, c :: A => by
    simp only [flipSigns, scaleMat, List.map_cons, List.zipWith_cons_cons]
    rw [show List.zipWith scaleCol gs (A.map (scaleCol a))
        = flipSigns (scaleMat a A) gs from rfl,
      flipSigns_scaleMat a gs A, scaleCol_scaleCol]
    rfl

lemma foldl_addCol_scale (a : α) :
    ∀ (l : List (Col α)) (z : Col α),
      (l.map (scaleCol a)).foldl addCol (scaleCol a z)
        = scaleCol a (l.foldl addCol z)
  | [], _ => rfl
  | c :: l, z => by
    rw [List.map_cons, List.foldl_cons, List.foldl_cons, scaleCol_addCol,
      foldl_addCol_scale a l (addCol z c)]

lemma sumCols_scale (a : α) (m : ℕ) (l : List (Col α)) :
    sumCols m (l.map (scaleCol a)) = scaleCol a (sumCols m l) := by
  rw [sumCols, sumCols, ← foldl_addCol_scale, scaleCol_colZeros]

lemma bucketCol_scaleMat (a : α) (m : ℕ) (B : Mat α) (hs : List ℕ) (i : ℕ) :
    bucketCol m (scaleMat a B) hs i = scaleCol a (bucketCol m B hs i) := by
  rw [bucketCol, bucketCol, scaleMat, List.zip_map_left, List.filter_map]
  have hp : ((fun x : Col α × ℕ => x.2 == i) ∘ Prod.map (scaleCol a) id)
      = fun x : Col α × ℕ => x.2 == i := by
    funext x
    rfl
  rw [hp, List.map_map]
  have hm : (Prod.fst ∘ Prod.map (scaleCol a) id)
      = (scaleCol a) ∘ (Prod.fst : Col α × ℕ → Col α) := by
    funext x
    rfl
  rw [hm, ← List.map_map, sumCols_scale]

/-- C6: for every matrix A, every scalar α, and every fixed (bucket, sign)
assignment, the batch sketch of αA under those draws is α times the batch
sketch of A under the same draws. -/
theorem C6_linearity (a : α) (m s : ℕ) (A : Mat α) (hs : List ℕ) (gs : List α) :
    countSketchInMemroy m (scaleMat a A) hs gs s
      = scaleMat a (countSketchInMemroy m A hs gs s) := by
  simp only [countSketchInMemroy, flipSigns_scaleMat, bucketCol_scaleMat]
  simp only [scaleMat, List.map_map, Function.comp_def]

/-! ### C7: column additivity under an arbitrary two-way partition -/

/-- The sublist of `l` selected by a boolean mask (the columns handed to
the first worker of a two-way partition, keeping their order and hence
their logical indices). -/
def maskSel {β : Type} : List Bool → List β → List β
  | true :: ms, b :: l => b :: maskSel ms l
  | false :: ms, _ :: l => maskSel ms l
  | _, _ => []

/-- The complementary sublist of `l` (the second worker's columns). -/
def maskRej {β : Type} : List Bool → List β → List β
  | true :: ms, _ :: l => maskRej ms l
  | false :: ms, b :: l => b :: maskRej ms l
  | _, _ => []

/-- The Accumulator merge: elementwise sum of two m×s buffers. -/
def addMat (C D : Mat α) : Mat α := List.zipWith addCol C D

lemma maskSel_subset {β : Type} :
    ∀ (mask : List Bool) (l : List β), ∀ b ∈ maskSel mask l, b ∈ l
  | [], l, b, hb => by simp [maskSel] at hb
  | _ :: _, [], b, hb => by simp [maskSel] at hb
  | true :: ms, c :: l, b, hb => by
    rcases List.mem_cons.mp hb with rfl | hb
    · exact List.mem_cons_self b l
    · exact List.mem_cons_of_mem c (maskSel_subset ms l b hb)
  | false :: ms, c :: l, b, hb =>
    List.mem_cons_of_mem c (maskSel_subset ms l b (by simpa [maskSel] using hb))

lemma maskRej_subset {β : Type} :
    ∀ (mask : List Bool) (l : List β), ∀ b ∈ maskRej mask l, b ∈ l
  | [], l, b, hb => by simp [maskRej] at hb
  | _ :: _, [], b, hb => by simp [maskRej] at hb
  | false :: ms, c :: l, b, hb => by
    rcases List.mem_cons.mp hb with rfl | hb
    · exact List.mem_cons_self b l
    · exact List.mem_cons_of_mem c (maskRej_subset ms l b hb)
  | true :: ms, c :: l, b, hb =>
    List.mem_cons_of_mem c (maskRej_subset ms l b (by simpa [maskRej] using hb))

lemma maskSel_zipWith {β γ δ : Type} (f : β → γ → δ) :
    ∀ (mask : List Bool) (l1 : List β) (l2 : List γ),
      mask.length = l1.length → l1.length = l2.length →
      List.zipWith f (maskSel mask l1) (maskSel mask l2)
        = maskSel mask (List.zipWith f l1 l2)
  | [], [], [], _, _ => rfl
  | [], _ :: _, _, h, _ => by simp at h
  | _ :: _, [], _, h, _ => by simp at h
  | _ :: _, _ :: _, [], _, h => by simp at h
  | true :: ms, b :: l1, c :: l2, h1, h2 => by
    simp only [maskSel, List.zipWith_cons_cons]
    rw [maskSel_zipWith f ms l1 l2 (by simpa using h1) (by simpa using h2)]
  | false :: ms, b :: l1, c :: l2, h1, h2 => by
    simp only [maskSel, List.zipWith_cons_cons]
    rw [maskSel_zipWith f ms l1 l2 (by simpa using h1) (by simpa using h2)]

lemma maskRej_zipWith {β γ δ : Type} (f : β → γ → δ) :
    ∀ (mask : List Bool) (l1 : List β) (l2 : List γ),
      mask.length = l1.length → l1.length = l2.length →
      List.zipWith f (maskRej mask l1) (maskRej mask l2)
        = maskRej mask (List.zipWith f l1 l2)
  | [], [], [], _, _ => rfl
  | [], _ :: _, _, h, _ => by simp at h
  | _ :: _, [], _, h, _ => by simp at h
  | _ :: _, _ :: _, [], _, h => by simp at h
  | true :: ms, b :: l1, c :: l2, h1, h2 => by
    simp only [maskRej, List.zipWith_cons_cons]
    rw [maskRej_zipWith f ms l1 l2 (by simpa using h1) (by simpa using h2)]
  | false :: ms, b :: l1, c :: l2, h1, h2 => by
    simp only [maskRej, List.zipWith_cons_cons]
    rw [maskRej_zipWith f ms l1 l2 (by simpa using h1) (by simpa using h2)]

lemma addCol_zeros_zeros (m : ℕ) :
    addCol (colZeros α m) (colZeros α m) = colZeros α m :=
  addCol_zeros_left (le_of_eq (length_colZeros m))

lemma sumCols_mask_split {m : ℕ} :
    ∀ (i : ℕ) (mask : List Bool) (l : List (Col α × ℕ)), mask.length = l.length →
      (∀ x ∈ l, x.1.length ≤ m) →
      sumCols m ((l.filter (fun x => x.2 == i)).map Prod.fst)
        = addCol
            (sumCols m (((maskSel mask l).filter (fun x => x.2 == i)).map Prod.fst))
            (sumCols m (((maskRej mask l).filter (fun x => x.2 == i)).map Prod.fst))
  | _, [], [], _, _ => by
    simp only [maskSel, maskRej, List.filter_nil, List.map_nil]
    rw [show sumCols m ([] : List (Col α)) = colZeros α m from rfl,
      addCol_zeros_zeros]
  | _, [], _ :: _, h, _ => by simp at h
  | _, _ :: _, [], h, _ => by simp at h
  | i, b :: ms, x :: l, h, hl => by
    have hxm : x.1.length ≤ m := hl x (by simp)
    have hlm : ∀ y ∈ l, y.1.length ≤ m := fun y hy => hl y (by simp [hy])
    have hwl : ∀ c ∈ (l.filter (fun y => y.2 == i)).map Prod.fst, c.length ≤ m :=
      fun c hc => by
        rcases List.mem_map.mp hc with ⟨y, hy, rfl⟩
        exact hlm y (List.mem_of_mem_filter hy)
    have hsl : ∀ c ∈ ((maskSel ms l).filter (fun y => y.2 == i)).map Prod.fst,
        c.length ≤ m :=
      fun c hc => by
        rcases List.mem_map.mp hc with ⟨y, hy, rfl⟩
        exact hlm y (maskSel_subset ms l y (List.mem_of_mem_filter hy))
    have hrl : ∀ c ∈ ((maskRej ms l).filter (fun y => y.2 == i)).map Prod.fst,
        c.length ≤ m :=
      fun c hc => by
        rcases List.mem_map.mp hc with ⟨y, hy, rfl⟩
        exact hlm y (maskRej_subset ms l y (List.mem_of_mem_filter hy))
    have ih := sumCols_mask_split i ms l (by simpa using h) hlm
    cases b with
    | true =>
      rw [show maskSel (true :: ms) (x :: l) = x :: maskSel ms l from rfl,
        show maskRej (true :: ms) (x :: l) = maskRej ms l from rfl]
      by_cases hxi : x.2 = i
      · rw [List.filter_cons_of_pos (by simp [hxi]),
          List.filter_cons_of_pos (by simp [hxi]),
          List.map_cons, List.map_cons, sumCols_cons hxm hwl,
          sumCols_cons hxm hsl, addCol_assoc, ← ih]
      · rw [List.filter_cons_of_neg (by simp [hxi]),
          List.filter_cons_of_neg (by simp [hxi])]
        exact ih
    | false =>
      rw [show maskSel (false :: ms) (x :: l) = maskSel ms l from rfl,
        show maskRej (false :: ms) (x :: l) = x :: maskRej ms l from rfl]
      by_cases hxi : x.2 = i
      · rw [List.filter_cons_of_pos (by simp [hxi]),
          List.filter_cons_of_pos (by simp [hxi]),
          List.map_cons, List.map_cons, sumCols_cons hxm hwl,
          sumCols_cons hxm hrl, ← addCol_left_comm, ← ih]
      · rw [List.filter_cons_of_neg (by simp [hxi]),
          List.filter_cons_of_neg (by simp [hxi])]
        exact ih

lemma length_flipSigns (A : Mat α) (gs : List α) :
    (flipSigns A gs).length = min gs.length A.length :=
  List.length_zipWith _ _ _

lemma zipWith_map_same {β γ₁ γ₂ δ : Type} (h : γ₁ → γ₂ → δ) (f : β → γ₁)
    (g : β → γ₂) : ∀ l : List β,
      List.zipWith h (l.map f) (l.map g) = l.map (fun x => h (f x) (g x))
  | [] => rfl
  | b :: l => by
    simp only [List.map_cons, List.zipWith_cons_cons]
    rw [zipWith_map_same h f g l]

/-- C7: for every two-way partition of the columns (given by a boolean
mask over the logical column indices, so each column keeps its own
(bucket, sign) draw), the batch sketch of the whole matrix equals the
Accumulator merge (elementwise sum) of the batch sketches of the two
parts. -/
theorem C7_column_additivity (m s : ℕ) (mask : List Bool) (A : Mat α)
    (hs : List ℕ) (gs : List α)
    (hml : mask.length = A.length)
    (hlh : hs.length = A.length) (hlg : gs.length = A.length)
    (hA : ∀ c ∈ A, c.length = m) :
    countSketchInMemroy m A hs gs s
      = addMat
          (countSketchInMemroy m (maskSel mask A) (maskSel mask hs)
            (maskSel mask gs) s)
          (countSketchInMemroy m (maskRej mask A) (maskRej mask hs)
            (maskRej mask gs) s) := by
  rw [countSketchInMemroy, countSketchInMemroy, countSketchInMemroy, addMat,
    zipWith_map_same]
  apply List.map_congr_left
  intro i _
  have hBsel : flipSigns (maskSel mask A) (maskSel mask gs)
      = maskSel mask (flipSigns A gs) := by
    rw [flipSigns, flipSigns, maskSel_zipWith scaleCol mask gs A (by omega) (by omega)]
  have hBrej : flipSigns (maskRej mask A) (maskRej mask gs)
      = maskRej mask (flipSigns A gs) := by
    rw [flipSigns, flipSigns, maskRej_zipWith scaleCol mask gs A (by omega) (by omega)]
  have hmB : mask.length = (flipSigns A gs).length := by
    rw [length_flipSigns]; omega
  have hzsel : (maskSel mask (flipSigns A gs)).zip (maskSel mask hs)
      = maskSel mask ((flipSigns A gs).zip hs) :=
    maskSel_zipWith Prod.mk mask (flipSigns A gs) hs hmB (by rw [length_flipSigns]; omega)
  have hzrej : (maskRej mask (flipSigns A gs)).zip (maskRej mask hs)
      = maskRej mask ((flipSigns A gs).zip hs) :=
    maskRej_zipWith Prod.mk mask (flipSigns A gs) hs hmB (by rw [length_flipSigns]; omega)
  rw [bucketCol, bucketCol, bucketCol, hBsel, hBrej, hzsel, hzrej]
  apply sumCols_mask_split i mask ((flipSigns A gs).zip hs)
  · rw [List.length_zip, length_flipSigns]; omega
  · intro x hx
    exact le_of_eq (mem_flipSigns_length gs A hA x.1 (List.of_mem_zip hx).1)

/-- Witness for C7 at A = [[1],[2]], s = 2, buckets [1,0], signs [1,-1],
partition mask [true, false]. -/
theorem C7_column_additivity_witness :
    (([true, false] : List Bool).length = ([[(1:ℤ)], [2]] : Mat ℤ).length ∧
     ([1, 0] : List ℕ).length = ([[(1:ℤ)], [2]] : Mat ℤ).length ∧
     ([1, -1] : List ℤ).length = ([[(1:ℤ)], [2]] : Mat ℤ).length ∧
     (∀ c ∈ ([[(1:ℤ)], [2]] : Mat ℤ), c.length = 1)) ∧
    countSketchInMemroy 1 [[(1:ℤ)], [2]] [1, 0] [1, -1] 2
      = addMat
          (countSketchInMemroy 1 (maskSel [true, false] [[(1:ℤ)], [2]])
            (maskSel [true, false] [1, 0]) (maskSel [true, false] [1, -1]) 2)
          (countSketchInMemroy 1 (maskRej [true, false] [[(1:ℤ)], [2]])
            (maskRej [true, false] [1, 0]) (maskRej [true, false] [1, -1]) 2) :=
  ⟨⟨by decide, by decide, by decide, by decide⟩,
   C7_column_additivity 1 2 [true, false] [[(1:ℤ)], [2]] [1, 0] [1, -1]
     (by decide) (by decide) (by decide) (by decide)⟩

/-! ### C8: the caller's matrix is never mutated -/

lemma set_getD_self {β : Type} {l : List β} {i : ℕ} {d : β} (h : i < l.length) :
    l.set i (l.getD i d) = l := by
  rw [List.getD_eq_getElem _ _ h]
  apply List.ext_getElem
  · simp
  · intro n h1 h2
    rw [List.getElem_set]
    split
    · next heq => subst heq; rfl
    · rfl

lemma getD_set_ne {β : Type} {l : List β} {i j : ℕ} {a d : β} (h : i ≠ j) :
    (l.set i a).getD j d = l.getD j d := by
  rw [List.getD_eq_getElem?_getD, List.getD_eq_getElem?_getD, List.getElem?_set_ne h]

lemma getD_set_self {β : Type} {l : List β} {i : ℕ} {a d : β} (h : i < l.length) :
    (l.set i a).getD i d = a := by
  rw [List.getD_eq_getElem?_getD, List.getElem?_set_self h]
  rfl

lemma getD_append_last {β : Type} (l : List β) (x d : β) :
    (l ++ [x]).getD l.length d = x := by
  rw [List.getD_eq_getElem?_getD, List.getElem?_concat_length]
  rfl

/-- A loop that repeatedly overwrites one heap cell `cRef`, reading only
that cell and a distinct cell `rRef`, is one write of the folded value. -/
lemma foldl_set_collapse (F : Mat α → Mat α → ℕ → Mat α) (rRef cRef : ℕ)
    (hne : rRef ≠ cRef) :
    ∀ (L : List ℕ) (hp : List (Mat α)), cRef < hp.length →
      L.foldl (fun hq j =>
          hq.set cRef (F (hq.getD rRef []) (hq.getD cRef []) j)) hp
        = hp.set cRef
            (L.foldl (fun C j => F (hp.getD rRef []) C j) (hp.getD cRef []))
  | [], hp, hc => by
    simp only [List.foldl_nil]
    exact (set_getD_self hc).symm
  | j :: L, hp, hc => by
    have hlen : cRef <
        (hp.set cRef (F (hp.getD rRef []) (hp.getD cRef []) j)).length := by
      simpa using hc
    rw [List.foldl_cons, foldl_set_collapse F rRef cRef hne L _ hlen,
      getD_set_ne (Ne.symm hne), getD_set_self hc, List.set_set,
      List.foldl_cons]

lemma inMemroy_loop_collapse (m cRef aLoc : ℕ) (hs : List ℕ)
    (hne : aLoc ≠ cRef) (L : List ℕ) (hp : List (Mat α))
    (hc : cRef < hp.length) :
    L.foldl (fun hq i => hq.set cRef ((hq.getD cRef []).set i
        (sumCols m ((((hq.getD aLoc []).zip hs).filter
          (fun x => x.2 == i)).map Prod.fst)))) hp
      = hp.set cRef (L.foldl (fun C i => C.set i
          (sumCols m ((((hp.getD aLoc []).zip hs).filter
            (fun x => x.2 == i)).map Prod.fst))) (hp.getD cRef [])) :=
  foldl_set_collapse
    (fun B C i => C.set i
      (sumCols m (((B.zip hs).filter (fun x => x.2 == i)).map Prod.fst)))
    aLoc cRef hne L hp hc

lemma streaming_loop_collapse (cRef aRef : ℕ) (hs : List ℕ) (gs : List α)
    (hne : aRef ≠ cRef) (L : List ℕ) (hp : List (Mat α))
    (hc : cRef < hp.length) :
    L.foldl (fun hq j => hq.set cRef (streamStepTotal (hq.getD cRef [])
        ((hq.getD aRef []).getD j [], hs.getD j 0, gs.getD j 0))) hp
      = hp.set cRef (L.foldl (fun C j => streamStepTotal C
          ((hp.getD aRef []).getD j [], hs.getD j 0, gs.getD j 0))
          (hp.getD cRef [])) :=
  foldl_set_collapse
    (fun A C j => streamStepTotal C (A.getD j [], hs.getD j 0, gs.getD j 0))
    aRef cRef hne L hp hc

lemma range_foldl_setBucket (m : ℕ) (B : Mat α) (hs : List ℕ) :
    ∀ (k : ℕ) (C : Mat α), k ≤ C.length →
      (List.range k).foldl (fun C i => C.set i
          (sumCols m (((B.zip hs).filter (fun x => x.2 == i)).map Prod.fst))) C
        = (List.range k).map (fun i =>
            sumCols m (((B.zip hs).filter (fun x => x.2 == i)).map Prod.fst))
          ++ C.drop k
  | 0, C, _ => by simp
  | k + 1, C, hk => by
    have hkC : k < C.length := hk
    rw [List.range_succ, List.foldl_append,
      range_foldl_setBucket m B hs k C (by omega),
      List.foldl_cons, List.foldl_nil, List.set_append]
    rw [if_neg (by simp)]
    have hsub : k - ((List.range k).map (fun i =>
        sumCols m (((B.zip hs).filter (fun x => x.2 == i)).map
          Prod.fst))).length = 0 := by simp
    rw [hsub, List.drop_eq_getElem_cons hkC, List.set_cons_zero,
      List.map_append, List.append_assoc]
    rfl

lemma range_foldl_stream_take :
    ∀ (k : ℕ) (A : Mat α) (hs : List ℕ) (gs : List α) (C : Mat α),
      k ≤ A.length → hs.length = A.length → gs.length = A.length →
      (List.range k).foldl (fun C j =>
          streamStepTotal C (A.getD j [], hs.getD j 0, gs.getD j 0)) C
        = ((A.zip (hs.zip gs)).take k).foldl streamStepTotal C
  | 0, _, _, _, _, _, _, _ => rfl
  | k + 1, A, hs, gs, C, hk, h1, h2 => by
    have hkA : k < A.length := hk
    have hkz : k < (A.zip (hs.zip gs)).length := by
      simp only [List.length_zip]
      omega
    rw [List.range_succ, List.foldl_append,
      range_foldl_stream_take k A hs gs C (by omega) h1 h2,
      List.take_succ, List.getElem?_eq_getElem hkz, Option.toList_some,
      List.foldl_append]
    simp only [List.foldl_cons, List.foldl_nil]
    congr 1
    rw [List.getElem_zip, List.getElem_zip,
      List.getD_eq_getElem _ _ hkA, List.getD_eq_getElem _ _ (by omega),
      List.getD_eq_getElem _ _ (by omega)]

/-- Heap-level model of `countSketchInMemroy`: the heap is the list of
live numpy arrays, the caller's matrix sits in cell `aRef`.
`np.zeros` allocates a fresh cell; `matrixA * randSigns` is evaluated out
of place into another fresh cell, the assignment rebinding only the local
name; the bucket loop reads the local (sign-flipped) cell and writes only
the `matrixC` cell.  Returns the final heap and the sketch's cell. -/
def countSketchInMemroyHeap (heap : List (Mat α)) (aRef : ℕ) (hs : List ℕ)
    (gs : List α) (s m : ℕ) : List (Mat α) × ℕ :=
  let cRef := heap.length
  let heap1 := heap ++ [List.replicate s (colZeros α m)]
  let aLoc := heap1.length
  let heap2 := heap1 ++ [flipSigns (heap1.getD aRef []) gs]
  let heap3 := (List.range s).foldl
    (fun hq i => hq.set cRef ((hq.getD cRef []).set i
      (sumCols m ((((hq.getD aLoc []).zip hs).filter
        (fun x => x.2 == i)).map Prod.fst)))) heap2
  (heap3, cRef)

/-- Heap-level model of `countSketchStreaming`: `matrixC` is allocated
fresh; each loop iteration reads column `j` of the caller's cell and
performs `matrixC[:, h] += g * a` on the `matrixC` cell only. -/
def countSketchStreamingHeap (heap : List (Mat α)) (aRef : ℕ) (hs : List ℕ)
    (gs : List α) (s m : ℕ) : List (Mat α) × ℕ :=
  let n := (heap.getD aRef []).length
  let cRef := heap.length
  let heap1 := heap ++ [List.replicate s (colZeros α m)]
  let heap2 := (List.range n).foldl
    (fun hq j => hq.set cRef (streamStepTotal (hq.getD cRef [])
      ((hq.getD aRef []).getD j [], hs.getD j 0, gs.getD j 0))) heap1
  (heap2, cRef)

lemma countSketchInMemroyHeap_eq (heap : List (Mat α)) (aRef : ℕ)
    (hs : List ℕ) (gs : List α) (s m : ℕ) (ha : aRef < heap.length) :
    countSketchInMemroyHeap heap aRef hs gs s m
      = (((heap ++ [List.replicate s (colZeros α m)])
            ++ [flipSigns (heap.getD aRef []) gs]).set heap.length
           (countSketchInMemroy m (heap.getD aRef []) hs gs s), heap.length) := by
  simp only [countSketchInMemroyHeap]
  rw [List.getD_append heap [List.replicate s (colZeros α m)] [] aRef ha]
  rw [inMemroy_loop_collapse m heap.length
    (heap ++ [List.replicate s (colZeros α m)]).length hs (by simp)
    (List.range s)
    ((heap ++ [List.replicate s (colZeros α m)])
      ++ [flipSigns (heap.getD aRef []) gs]) (by simp)]
  rw [getD_append_last (heap ++ [List.replicate s (colZeros α m)])
    (flipSigns (heap.getD aRef []) gs) []]
  rw [List.getD_append (heap ++ [List.replicate s (colZeros α m)])
    [flipSigns (heap.getD aRef []) gs] [] heap.length (by simp)]
  rw [getD_append_last heap (List.replicate s (colZeros α m)) []]
  rw [range_foldl_setBucket m (flipSigns (heap.getD aRef []) gs) hs s
    (List.replicate s (colZeros α m)) (by simp)]
  simp only [List.drop_replicate, Nat.sub_self, List.replicate_zero,
    List.append_nil]
  rfl

lemma countSketchStreamingHeap_eq (heap : List (Mat α)) (aRef : ℕ)
    (hs : List ℕ) (gs : List α) (s m : ℕ) (ha : aRef < heap.length)
    (hlh : hs.length = (heap.getD aRef []).length)
    (hlg : gs.length = (heap.getD aRef []).length) :
    countSketchStreamingHeap heap aRef hs gs s m
      = ((heap ++ [List.replicate s (colZeros α m)]).set heap.length
           (((heap.getD aRef []).zip (hs.zip gs)).foldl streamStepTotal
             (List.replicate s (colZeros α m))), heap.length) := by
  simp only [countSketchStreamingHeap]
  rw [streaming_loop_collapse heap.length aRef hs gs (by omega)
    (List.range (heap.getD aRef []).length)
    (heap ++ [List.replicate s (colZeros α m)]) (by simp)]
  rw [List.getD_append heap [List.replicate s (colZeros α m)] [] aRef ha]
  rw [getD_append_last heap (List.replicate s (colZeros α m)) []]
  rw [range_foldl_stream_take (heap.getD aRef []).length (heap.getD aRef [])
    hs gs (List.replicate s (colZeros α m)) (le_refl _) hlh hlg]
  rw [show ((heap.getD aRef []).zip (hs.zip gs)).take
      (heap.getD aRef []).length
      = (heap.getD aRef []).zip (hs.zip gs) from by
    apply List.take_of_length_le
    simp only [List.length_zip]
    omega]

/-- C8: neither sketcher mutates the caller's matrix.  In the heap model
the cell holding the caller's matrix is unchanged after either sketch
computation (the sign flip happens out of place in a fresh cell), and the
cell returned holds exactly the sketch the pure functions compute. -/
theorem C8_caller_matrix_unchanged (heap : List (Mat α)) (aRef : ℕ)
    (hs : List ℕ) (gs : List α) (s m : ℕ) (ha : aRef < heap.length)
    (hlh : hs.length = (heap.getD aRef []).length)
    (hlg : gs.length = (heap.getD aRef []).length)
    (hbuck : ∀ h ∈ hs, h < s) :
    ((countSketchInMemroyHeap heap aRef hs gs s m).1).getD aRef []
        = heap.getD aRef [] ∧
    ((countSketchStreamingHeap heap aRef hs gs s m).1).getD aRef []
        = heap.getD aRef [] ∧
    ((countSketchInMemroyHeap heap aRef hs gs s m).1).getD
        (countSketchInMemroyHeap heap aRef hs gs s m).2 []
      = countSketchInMemroy m (heap.getD aRef []) hs gs s ∧
    countSketchStreaming m (heap.getD aRef []) hs gs s
      = some (((countSketchStreamingHeap heap aRef hs gs s m).1).getD
          (countSketchStreamingHeap heap aRef hs gs s m).2 []) := by
  have hin := countSketchInMemroyHeap_eq heap aRef hs gs s m ha
  have hst := countSketchStreamingHeap_eq heap aRef hs gs s m ha hlh hlg
  refine ⟨?_, ?_, ?_, ?_⟩
  · rw [hin]
    rw [getD_set_ne (by omega)]
    rw [List.getD_append _ _ [] aRef
        (by simp only [List.length_append, List.length_cons, List.length_nil]; omega),
      List.getD_append _ _ [] aRef ha]
  · rw [hst]
    rw [getD_set_ne (by omega), List.getD_append _ _ [] aRef ha]
  · rw [hin]
    exact getD_set_self (by simp)
  · rw [hst]
    rw [getD_set_self (by simp)]
    have hmem : ∀ x ∈ (heap.getD aRef []).zip (hs.zip gs),
        x.2.1 < (List.replicate s (colZeros α m)).length := by
      rw [List.length_replicate]
      exact mem_zip_bucket_lt hbuck
    rw [countSketchStreaming, foldlM_streamStep_eq _ _ hmem]

/-- Witness for C8: a one-cell heap holding the 1×1 matrix [[5]],
s = 2, buckets [0], signs [1]. -/
theorem C8_caller_matrix_unchanged_witness :
    ((0:ℕ) < ([[[(5:ℤ)]]] : List (Mat ℤ)).length ∧
     ([0] : List ℕ).length = (([[[(5:ℤ)]]] : List (Mat ℤ)).getD 0 []).length ∧
     ([1] : List ℤ).length = (([[[(5:ℤ)]]] : List (Mat ℤ)).getD 0 []).length ∧
     (∀ h ∈ ([0] : List ℕ), h < 2)) ∧
    (((countSketchInMemroyHeap [[[(5:ℤ)]]] 0 [0] [1] 2 1).1).getD 0 []
        = ([[[(5:ℤ)]]] : List (Mat ℤ)).getD 0 [] ∧
     ((countSketchStreamingHeap [[[(5:ℤ)]]] 0 [0] [1] 2 1).1).getD 0 []
        = ([[[(5:ℤ)]]] : List (Mat ℤ)).getD 0 [] ∧
     ((countSketchInMemroyHeap [[[(5:ℤ)]]] 0 [0] [1] 2 1).1).getD
        (countSketchInMemroyHeap [[[(5:ℤ)]]] 0 [0] [1] 2 1).2 []
      = countSketchInMemroy 1 (([[[(5:ℤ)]]] : List (Mat ℤ)).getD 0 []) [0] [1] 2 ∧
     countSketchStreaming 1 (([[[(5:ℤ)]]] : List (Mat ℤ)).getD 0 []) [0] [1] 2
      = some (((countSketchStreamingHeap [[[(5:ℤ)]]] 0 [0] [1] 2 1).1).getD
          (countSketchStreamingHeap [[[(5:ℤ)]]] 0 [0] [1] 2 1).2 [])) :=
  ⟨⟨by decide, by decide, by decide, by decide⟩,
   C8_caller_matrix_unchanged [[[(5:ℤ)]]] 0 [0] [1] 2 1
     (by decide) (by decide) (by decide) (by decide)⟩

/-! ### C9: the RandomAssignment contract -/

/-- Error kinds named by the spec (section 7). -/
inductive CSError where
  | InvalidParameter
  | ShapeMismatch
  | InvalidState
deriving DecidableEq

/-- Modelled from the spec: the RandomAssignment component
`assign(n, s, seed)` of spec section 4.1 has no named counterpart in the
source; the source draws inline via `np.random.choice(s, n)` and
`np.random.choice(2, n) * 2 - 1`, which reject `s ≤ 0` and `n < 0` (the
failure the spec names `InvalidParameter`), and there is no explicit seed
in the source.  The seed is modelled as a stream of pairs of naturals,
the first driving the bucket draw (residue mod s, covering [0, s)
uniformly as the stream varies) and the second the sign draw (parity,
mapped by b * 2 - 1 to {+1, -1} as in the source). -/
def assign (n s : Int) (seed : ℕ → ℕ × ℕ) : Except CSError (List (ℕ × α)) :=
  if s ≤ 0 ∨ n < 0 then .error .InvalidParameter
  else .ok ((List.range n.toNat).map (fun j =>
    ((seed j).1 % s.toNat, (((seed j).2 % 2 : ℕ) : α) * 2 - 1)))

/-- C9: `assign(n, s, seed)` fails with InvalidParameter exactly when
s ≤ 0 or n < 0; otherwise it returns n (bucket, sign) pairs with every
bucket in [0, s) and every sign in {+1, -1}, and every such sequence of
draws is realized by some seed (full support of the modelled uniform
draws). -/
theorem C9_assign_contract (n s : Int) (seed : ℕ → ℕ × ℕ) :
    (s ≤ 0 ∨ n < 0 → assign (α := α) n s seed = .error .InvalidParameter) ∧
    (0 < s → 0 ≤ n → ∃ l : List (ℕ × α), assign n s seed = .ok l ∧
      l.length = n.toNat ∧
      ∀ p ∈ l, p.1 < s.toNat ∧ (p.2 = 1 ∨ p.2 = -1)) ∧
    (0 < s → 0 ≤ n → ∀ t : List (ℕ × α), t.length = n.toNat →
      (∀ p ∈ t, p.1 < s.toNat ∧ (p.2 = 1 ∨ p.2 = -1)) →
      ∃ sd : ℕ → ℕ × ℕ, assign n s sd = .ok t) := by
  refine ⟨?_, ?_, ?_⟩
  · intro h
    rw [assign, if_pos h]
  · intro hs hn
    refine ⟨_, by rw [assign, if_neg (by omega)], by simp, ?_⟩
    intro p hp
    rcases List.mem_map.mp hp with ⟨j, _, rfl⟩
    constructor
    · exact Nat.mod_lt _ (by omega)
    · rcases Nat.mod_two_eq_zero_or_one (seed j).2 with h2 | h2 <;> rw [h2]
      · right
        push_cast
        ring
      · left
        push_cast
        ring
  · intro hs hn t hlen hmem
    classical
    refine ⟨fun j => ((t.getD j (0, 1)).1,
      if (t.getD j (0, 1)).2 = 1 then 1 else 0), ?_⟩
    rw [assign, if_neg (by omega)]
    congr 1
    apply List.ext_getElem
    · simpa using hlen.symm
    · intro j h1 h2
      have hjt : j < t.length := by simpa [hlen] using h1
      have hgd : t.getD j (0, 1) = t[j] := List.getD_eq_getElem t (0, 1) hjt
      have hmj := hmem t[j] (List.getElem_mem hjt)
      rw [List.getElem_map, List.getElem_range]
      simp only [hgd]
      have hfst : t[j].1 % s.toNat = t[j].1 := Nat.mod_eq_of_lt hmj.1
      by_cases hone : t[j].2 = 1
      · rw [if_pos hone]
        have : ((1 % 2 : ℕ) : α) * 2 - 1 = 1 := by norm_num
        rw [hfst, this, ← hone]
      · rw [if_neg hone]
        have hneg : t[j].2 = -1 := by
          rcases hmj.2 with h | h
          · exact absurd h hone
          · exact h
        have : ((0 % 2 : ℕ) : α) * 2 - 1 = -1 := by norm_num
        rw [hfst, this, ← hneg]

/-- Witness for C9 over ℤ with a constant seed: the failure branch at
s = 0 and the success branch at n = 1, s = 2 both behave as stated. -/
theorem C9_assign_contract_witness :
    (((0:Int) ≤ 0 ∨ (1:Int) < 0) ∧ 0 < (2:Int) ∧ (0:Int) ≤ 1) ∧
    (assign (α := ℤ) 1 0 (fun _ => (1, 1)) = .error .InvalidParameter) ∧
    (∃ l : List (ℕ × ℤ), assign 1 2 (fun _ => (1, 1)) = .ok l ∧
        l.length = (1:Int).toNat ∧
        ∀ p ∈ l, p.1 < (2:Int).toNat ∧ (p.2 = 1 ∨ p.2 = -1)) :=
  ⟨⟨by decide, by decide, by decide⟩,
   (C9_assign_contract (α := ℤ) 1 0 (fun _ => (1, 1))).1 (by decide),
   (C9_assign_contract (α := ℤ) 1 2 (fun _ => (1, 1))).2.1 (by decide) (by decide)⟩

/-! ### C10: streaming draws are always in bounds -/

/-- `np.random.choice(s, n)`: n uniform draws from [0, s), modelled as
residues mod s of a stream of naturals. -/
def chooseBuckets (s : ℕ) (us : List ℕ) : List ℕ := us.map (fun u => u % s)

/-- `np.random.choice(2, n) * 2 - 1`: n uniform draws from {+1, -1},
modelled from parities of a stream of naturals. -/
def chooseSigns (bs : List ℕ) : List α := bs.map (fun b => ((b % 2 : ℕ) : α) * 2 - 1)

/-- C10: in the streaming sketcher with draws from np.random.choice —
bucket h = u mod s, sign g = (b mod 2)·2 − 1 — and s > 0, every bucket
used to index the accumulator satisfies 0 ≤ h < s, every sign is +1 or
-1, and the bounds check of the embedded accumulator write never fires:
the streaming run always returns a result. -/
theorem C10_streaming_draws_safe (m s : ℕ) (A : Mat α) (us bs : List ℕ)
    (hs0 : 0 < s) :
    (∀ h ∈ chooseBuckets s us, h < s) ∧
    (∀ g ∈ chooseSigns (α := α) bs, g = 1 ∨ g = -1) ∧
    ∃ C, countSketchStreaming m A (chooseBuckets s us) (chooseSigns bs) s
      = some C := by
  have hbuck : ∀ h ∈ chooseBuckets s us, h < s := by
    intro h hh
    rcases List.mem_map.mp hh with ⟨u, _, rfl⟩
    exact Nat.mod_lt u hs0
  refine ⟨hbuck, ?_, ?_⟩
  · intro g hg
    rcases List.mem_map.mp hg with ⟨b, _, rfl⟩
    rcases Nat.mod_two_eq_zero_or_one b with h2 | h2 <;> rw [h2]
    · right
      push_cast
      ring
    · left
      push_cast
      ring
  · have hmem : ∀ x ∈ A.zip ((chooseBuckets s us).zip (chooseSigns (α := α) bs)),
        x.2.1 < (List.replicate s (colZeros α m)).length := by
      intro x hx
      rw [List.length_replicate]
      exact hbuck x.2.1 (List.of_mem_zip (List.of_mem_zip hx).2).1
    exact ⟨(A.zip ((chooseBuckets s us).zip (chooseSigns bs))).foldl
        streamStepTotal (List.replicate s (colZeros α m)),
      by rw [countSketchStreaming]; exact foldlM_streamStep_eq _ _ hmem⟩

/-- Witness for C10 at A = [[1]], s = 2, raw draws us = [3], bs = [2]. -/
theorem C10_streaming_draws_safe_witness :
    (0:ℕ) < 2 ∧
    ((∀ h ∈ chooseBuckets 2 [3], h < 2) ∧
     (∀ g ∈ chooseSigns (α := ℤ) [2], g = 1 ∨ g = -1) ∧
     ∃ C, countSketchStreaming 1 [[(1:ℤ)]] (chooseBuckets 2 [3])
        (chooseSigns [2]) 2 = some C) :=
  ⟨by decide, C10_streaming_draws_safe 1 2 [[(1:ℤ)]] [3] [2] (by decide)⟩

end CountSketch
